import Mathlib

/-!
Shallow embedding of the magic-bitboard move-generation core of the
`chess` crate (`src/magic.rs`, `src/square.rs`).  A `BitBoard` is the
underlying `u64`, modelled as a natural number understood modulo `2 ^ 64`;
a square is `Fin 64`.  The generated lookup tables (`magic_gen.rs`,
produced by the build script, which is not among the sources) are
treated as parameters, collected in the `Tables` structure.
-/

namespace Chess

/-- Modulus of 64-bit machine arithmetic. -/
def U64MOD : Nat := 2 ^ 64

/-- Square on the chess board (`square.rs`): an index in `0..63`. -/
abbrev Square := Fin 64

/-- Embedding of `Square::new` (`square.rs` lines 146-160): the generated
`match` on `sq & 63` has one arm per square index `0..63`, arm `k`
returning the square of discriminant `k`, plus an `unreachable!()`
wildcard arm, modelled as `none`. -/
def Square.new (sq : Nat) : Option Square :=
  if h : sq &&& 63 < 64 then some ⟨sq &&& 63, h⟩ else none

/-- Embedding of `Square::to_index` (`square.rs` lines 479-482). -/
def Square.to_index (s : Square) : Nat := s.val

/-- Modelled from the spec: `color.rs` is not among the sources; §2 of the
spec describes a two-valued color enumeration with index conversion
(White first, Black second). -/
inductive Color where
  | White
  | Black
deriving DecidableEq

/-- Modelled from the spec: index conversion of the color enumeration. -/
def Color.toIndex : Color → Fin 2
  | .White => 0
  | .Black => 1

/-- Modelled from the spec: `rank.rs` is not among the sources; §2 describes a
rank enumeration `0..7`. -/
abbrev Rank := Fin 8

/-- Modelled from the spec: `file.rs` is not among the sources; §2 describes a
file enumeration `0..7`. -/
abbrev File := Fin 8

/-- Modelled from the spec: wrap-around upward step on ranks (§2
"directional stepping (including wrap-around variants)"). -/
def Rank.up (r : Rank) : Rank := ⟨(r.val + 1) % 8, Nat.mod_lt _ (by decide)⟩

/-- Modelled from the spec: wrap-around downward step on ranks. -/
def Rank.down (r : Rank) : Rank := ⟨(r.val + 7) % 8, Nat.mod_lt _ (by decide)⟩

/-- Embedding of `Square::get_rank` (`square.rs` lines 194-196):
`Rank::from_index(self as usize >> 3)`; `>> 3` is division by 8. -/
def Square.get_rank (s : Square) : Rank := ⟨s.val / 8, by omega⟩

/-- Embedding of `Square::get_file` (`square.rs` lines 208-210):
`File::from_index(self as usize & 7)`; `& 7` is reduction modulo 8. -/
def Square.get_file (s : Square) : File := ⟨s.val % 8, by omega⟩

/-- Embedding of `Square::make_square` (`square.rs` lines 180-182):
`Square::new((rank as u8) << 3 ^ (file as u8))`; `Square::new` reduces its
argument with `& 63`. -/
def make_square (r : Rank) (f : File) : Square :=
  ⟨((r.val <<< 3) ^^^ f.val) &&& 63, Nat.lt_succ_of_le Nat.and_le_right⟩

/-- Embedding of `Square::uup` (`square.rs` lines 353-355). -/
def Square.uup (s : Square) : Square := make_square s.get_rank.up s.get_file

/-- Embedding of `Square::udown` (`square.rs` lines 369-371). -/
def Square.udown (s : Square) : Square := make_square s.get_rank.down s.get_file

/-- Embedding of `Square::uforward` (`square.rs` lines 422-428). -/
def Square.uforward (s : Square) (color : Color) : Square :=
  match color with
  | .White => s.uup
  | .Black => s.udown

/-- Modelled from the spec: `bitboard.rs` is not among the sources.
`BitBoard` multiplication in the magic scheme is wrapping 64-bit
multiplication (§4.1; the index formula is taken "mod 2^64"). -/
def wrapping_mul (a b : Nat) : Nat := a * b % U64MOD

/-- Modelled from the spec: `BitBoard::to_size(rightshift)` is a right
shift of the underlying `u64`, converted to `usize` (§4.1: `index =
(relevant * magic) >> shift`). -/
def to_size (v : Nat) (r : Nat) : Nat := v >>> r

/-- Modelled from the spec: `!blockers` is the 64-bit complement of the set
(§3: a `BitBoard` is a 64-bit set with complement). -/
def compl64 (b : Nat) : Nat := b ^^^ (U64MOD - 1)

/-- Modelled from the spec: `BitBoard::from_square` is the singleton set of
one square (§3). -/
def from_square (s : Square) : Nat := 1 <<< s.val

/-- Magic entry for one square, with the fields used by `magic.rs`
(`mask`, `magic_number`, `rightshift`, `offset`); the concrete per-square
values live in the generated `magic_gen.rs`, not among the sources. -/
structure Magic where
  magic_number : Nat
  mask : Nat
  offset : Nat
  rightshift : Nat

/-- BMI magic entry for one square, with the fields used by `magic.rs`
(`blockers_mask`, `offset`). -/
structure BmiMagic where
  blockers_mask : Nat
  offset : Nat

/-- Modelled from the spec: the generated lookup tables of `magic_gen.rs`
(§2 "Generated constant tables", an offline collaborator) are unknown
constants, so they are parameters.  `MOVES` and `BMI_MOVES` are flat
arrays, modelled as their content function plus their length. -/
structure Tables where
  MAGIC_NUMBERS : Fin 2 → Fin 64 → Magic
  MOVES : Nat → Nat
  movesLen : Nat
  RAYS : Fin 2 → Fin 64 → Nat
  ROOK_BMI_MASK : Fin 64 → BmiMagic
  BISHOP_BMI_MASK : Fin 64 → BmiMagic
  BMI_MOVES : Nat → Nat
  bmiMovesLen : Nat
  PAWN_ATTACKS : Fin 2 → Fin 64 → Nat
  PAWN_MOVES : Fin 2 → Fin 64 → Nat

/-- Index of the rook tables in `MAGIC_NUMBERS` and `RAYS`. -/
def ROOK : Fin 2 := 0

/-- Index of the bishop tables in `MAGIC_NUMBERS` and `RAYS`. -/
def BISHOP : Fin 2 := 1

/-- Embedding of `get_rook_rays` (`magic.rs` lines 25-28). -/
def get_rook_rays (T : Tables) (sq : Square) : Nat := T.RAYS ROOK ⟨sq.to_index, sq.isLt⟩

/-- Embedding of `get_bishop_rays` (`magic.rs` lines 19-22). -/
def get_bishop_rays (T : Tables) (sq : Square) : Nat := T.RAYS BISHOP ⟨sq.to_index, sq.isLt⟩

/-- Embedding of `get_rook_moves` (`magic.rs` lines 61-72): the unchecked
read `MOVES.get_unchecked(offset + (magic_number * (blockers & mask)).to_size(rightshift))`
intersected with the rook rays. -/
def get_rook_moves (T : Tables) (sq : Square) (blockers : Nat) : Nat :=
  let magic := T.MAGIC_NUMBERS ROOK ⟨sq.to_index, sq.isLt⟩
  T.MOVES (magic.offset +
      to_size (wrapping_mul magic.magic_number (blockers &&& magic.mask)) magic.rightshift)
    &&& get_rook_rays T sq

/-- Embedding of `get_bishop_moves` (`magic.rs` lines 93-104). -/
def get_bishop_moves (T : Tables) (sq : Square) (blockers : Nat) : Nat :=
  let magic := T.MAGIC_NUMBERS BISHOP ⟨sq.to_index, sq.isLt⟩
  T.MOVES (magic.offset +
      to_size (wrapping_mul magic.magic_number (blockers &&& magic.mask)) magic.rightshift)
    &&& get_bishop_rays T sq

/-- Number of set bits of a natural number; models `u64::count_ones` for
values below `2 ^ 64`. -/
def countOnes (m : Nat) : Nat :=
  if m = 0 then 0 else m % 2 + countOnes (m / 2)
decreasing_by simp_wf; omega

/-- Modelled from the spec: the `_pext_u64` intrinsic (§4.2
"parallel_extract compresses the selected mask bits of `blockers` into a
dense low-order integer"), defined bit by bit from the low end. -/
def pext (b m : Nat) : Nat :=
  if m = 0 then 0
  else if m % 2 = 1 then 2 * pext (b / 2) (m / 2) + b % 2
  else pext (b / 2) (m / 2)
decreasing_by all_goals simp_wf; omega

/-- Modelled from the spec: the `_pdep_u64` intrinsic (§4.2
"parallel_deposit expands the dense bits back onto the ray's bit
positions"), defined bit by bit from the low end. -/
def pdep (v m : Nat) : Nat :=
  if m = 0 then 0
  else if m % 2 = 1 then 2 * pdep (v / 2) (m / 2) + v % 2
  else 2 * pdep v (m / 2)
decreasing_by all_goals simp_wf; omega

/-- Embedding of `get_rook_moves_bmi` (`magic.rs` lines 75-90):
`pdep(BMI_MOVES[pext(blockers, blockers_mask) + offset], rook_rays)`. -/
def get_rook_moves_bmi (T : Tables) (sq : Square) (blockers : Nat) : Nat :=
  let bmi2_magic := T.ROOK_BMI_MASK ⟨sq.to_index, sq.isLt⟩
  pdep (T.BMI_MOVES (pext blockers bmi2_magic.blockers_mask + bmi2_magic.offset))
    (get_rook_rays T sq)

/-- Embedding of `get_bishop_moves_bmi` (`magic.rs` lines 107-122). -/
def get_bishop_moves_bmi (T : Tables) (sq : Square) (blockers : Nat) : Nat :=
  let bmi2_magic := T.BISHOP_BMI_MASK ⟨sq.to_index, sq.isLt⟩
  pdep (T.BMI_MOVES (pext blockers bmi2_magic.blockers_mask + bmi2_magic.offset))
    (get_bishop_rays T sq)

/-- Per-square body of `table_access_is_sound` (`magic.rs` lines 31-42).
The function is a `const fn`, forced by `const_assert!` at compile time;
Rust constant evaluation aborts compilation on `u64` multiplication
overflow and on a shift amount of 64 or more, so those cases are `none`
(the check cannot pass).  Otherwise it is the in-bounds comparison
`offset + ((magic_number * mask) >> rightshift) < MOVES.len()`. -/
def checkMagicSquare (magic : Magic) (len : Nat) : Option Bool :=
  if magic.magic_number * magic.mask < U64MOD ∧ magic.rightshift < 64 then
    some (decide (magic.offset + (magic.magic_number * magic.mask) >>> magic.rightshift < len))
  else none

/-- One step of the square loop of the soundness checks: once a square has
failed (or aborted constant evaluation), the outcome is fixed. -/
def checkStep {α : Type} (f : α → Option Bool) (acc : Option Bool) (x : α) : Option Bool :=
  match acc with
  | some true => f x
  | r => r

/-- Short-circuiting conjunction of per-element `Option Bool` checks, in
list order: the loop of `table_access_is_sound` returns at the first
square whose check is not `some true`. -/
def checkAll {α : Type} (f : α → Option Bool) (l : List α) : Option Bool :=
  l.foldl (checkStep f) (some true)

/-- Embedding of `table_access_is_sound` (`magic.rs` lines 31-42): every
square `0..63` must pass `checkMagicSquare`. -/
def table_access_is_sound (T : Tables) (index : Fin 2) : Option Bool :=
  checkAll (fun sq => checkMagicSquare (T.MAGIC_NUMBERS index sq) T.movesLen) (List.finRange 64)

/-- Per-square body of `bmi_table_access_is_sound` (`magic.rs` lines
45-58).  Rust constant evaluation aborts on the shift overflow
`1u64 << 64`, so 64 or more set mask bits yield `none`; otherwise the
check is `offset + ((1 << count_ones(blockers_mask)) - 1) < BMI_MOVES.len()`. -/
def checkBmiSquare (bmi2_magic : BmiMagic) (len : Nat) : Option Bool :=
  if countOnes bmi2_magic.blockers_mask < 64 then
    some (decide (bmi2_magic.offset + (2 ^ countOnes bmi2_magic.blockers_mask - 1) < len))
  else none

/-- Embedding of `bmi_table_access_is_sound` (`magic.rs` lines 45-58). -/
def bmi_table_access_is_sound (masks : Fin 64 → BmiMagic) (len : Nat) : Option Bool :=
  checkAll (fun sq => checkBmiSquare (masks sq) len) (List.finRange 64)

/-- Embedding of `get_pawn_attacks` (`magic.rs` lines 139-141). -/
def get_pawn_attacks (T : Tables) (sq : Square) (color : Color) (blockers : Nat) : Nat :=
  T.PAWN_ATTACKS color.toIndex ⟨sq.to_index, sq.isLt⟩ &&& blockers

/-- Embedding of `get_pawn_quiets` (`magic.rs` lines 151-157). -/
def get_pawn_quiets (T : Tables) (sq : Square) (color : Color) (blockers : Nat) : Nat :=
  if from_square (sq.uforward color) &&& blockers ≠ 0 then 0
  else T.PAWN_MOVES color.toIndex ⟨sq.to_index, sq.isLt⟩ &&& compl64 blockers

/-- Embedding of `get_pawn_moves` (`magic.rs` lines 162-164): the
exclusive-or of attacks and quiets. -/
def get_pawn_moves (T : Tables) (sq : Square) (color : Color) (blockers : Nat) : Nat :=
  get_pawn_attacks T sq color blockers ^^^ get_pawn_quiets T sq color blockers

/-- Embedding of `line` (`magic.rs` lines 169-171), with the generated
`LINE` table as a parameter. -/
def line (LINE : Fin 64 → Fin 64 → Nat) (sq1 sq2 : Square) : Nat :=
  LINE ⟨sq1.to_index, sq1.isLt⟩ ⟨sq2.to_index, sq2.isLt⟩

/-- Embedding of `between` (`magic.rs` lines 175-177), with the generated
`BETWEEN` table as a parameter. -/
def between (BETWEEN : Fin 64 → Fin 64 → Nat) (sq1 sq2 : Square) : Nat :=
  BETWEEN ⟨sq1.to_index, sq1.isLt⟩ ⟨sq2.to_index, sq2.isLt⟩

/-- Spec formula for the magic lookup (§4.1 of the spec, quoted by the
claim): `relevant = blockers & mask`; `index = (relevant * magic) >> shift`
(64-bit, so modulo `2 ^ 64`); `raw = move_table[offset + index]`;
`result = raw & rays`. -/
def sliding_attack_spec (moves : Nat → Nat) (magic : Magic) (rays : Nat) (blockers : Nat) : Nat :=
  moves (magic.offset +
      to_size (wrapping_mul (blockers &&& magic.mask) magic.magic_number) magic.rightshift)
    &&& rays

/-- Rank index of a square, `index >> 3` (spec §2). -/
def rankOf (s : Square) : Nat := s.val / 8

/-- File index of a square, `index & 7` (spec §2). -/
def fileOf (s : Square) : Nat := s.val % 8

/-- BitBoard of all squares satisfying a predicate. -/
def squaresBB (p : Square → Prop) [DecidablePred p] : Nat :=
  ∑ i : Fin 64, if p i then 2 ^ i.val else 0

/-- Two squares lie on one ascending diagonal (their rank minus file
agree, phrased without subtraction). -/
def diagEq (a b : Square) : Prop := rankOf a + fileOf b = rankOf b + fileOf a

/-- Two squares lie on one descending anti-diagonal (their rank plus file
agree). -/
def antiEq (a b : Square) : Prop := rankOf a + fileOf a = rankOf b + fileOf b

instance (a b : Square) : Decidable (diagEq a b) := by unfold diagEq; infer_instance

instance (a b : Square) : Decidable (antiEq a b) := by unfold antiEq; infer_instance

/-- Modelled from the spec: the generated `LINE` table (`magic_gen.rs`,
not among the sources), per §4.4: the full board-edge-to-board-edge line
through both squares if rank/file/diagonal-aligned, else empty. -/
def LINE_model (a b : Square) : Nat :=
  if rankOf a = rankOf b then squaresBB (fun c => rankOf c = rankOf a)
  else if fileOf a = fileOf b then squaresBB (fun c => fileOf c = fileOf a)
  else if diagEq a b then squaresBB (fun c => diagEq a c)
  else if antiEq a b then squaresBB (fun c => antiEq a c)
  else 0

/-- A coordinate strictly inside two others (in either order). -/
def strictBetween (x y z : Nat) : Prop := (x < z ∧ z < y) ∨ (y < z ∧ z < x)

instance (x y z : Nat) : Decidable (strictBetween x y z) := by
  unfold strictBetween
  infer_instance

/-- A square strictly between two aligned squares: on the same rank, file,
diagonal or anti-diagonal as both, with its varying coordinate strictly
inside theirs. -/
def btwCond (a b c : Square) : Prop :=
  (rankOf a = rankOf b ∧ rankOf c = rankOf a ∧
    strictBetween (fileOf a) (fileOf b) (fileOf c)) ∨
  (fileOf a = fileOf b ∧ fileOf c = fileOf a ∧
    strictBetween (rankOf a) (rankOf b) (rankOf c)) ∨
  (diagEq a b ∧ diagEq a c ∧ strictBetween (rankOf a) (rankOf b) (rankOf c)) ∨
  (antiEq a b ∧ antiEq a c ∧ strictBetween (rankOf a) (rankOf b) (rankOf c))

instance (a b c : Square) : Decidable (btwCond a b c) := by unfold btwCond; infer_instance

/-- Modelled from the spec: the generated `BETWEEN` table (`magic_gen.rs`,
not among the sources), per §4.4: squares strictly between two aligned
squares, empty if unaligned or adjacent. -/
def BETWEEN_model (a b : Square) : Nat := squaresBB (fun c => btwCond a b c)

/-- Concrete all-zero tables of length 1, used to instantiate theorems
with hypotheses at a concrete input. -/
def trivTables : Tables where
  MAGIC_NUMBERS := fun _ _ => ⟨0, 0, 0, 0⟩
  MOVES := fun _ => 0
  movesLen := 1
  RAYS := fun _ _ => 0
  ROOK_BMI_MASK := fun _ => ⟨0, 0⟩
  BISHOP_BMI_MASK := fun _ => ⟨0, 0⟩
  BMI_MOVES := fun _ => 0
  bmiMovesLen := 1
  PAWN_ATTACKS := fun _ _ => 0
  PAWN_MOVES := fun _ _ => 0

/-- Concrete all-zero BMI mask table, used to instantiate theorems with
hypotheses at a concrete input. -/
def trivBmiMasks : Fin 64 → BmiMagic := fun _ => ⟨0, 0⟩

/-- C1: for every square `sq` and every 64-bit blocker set, `get_rook_moves`
and `get_bishop_moves` return exactly
`MOVES[offset + (((blockers AND mask) * magic_number) >> rightshift)]`
intersected with the corresponding unobstructed ray set for `sq`, where the
fields are the generated magic-entry fields for that piece and square. -/
theorem magic_lookup_matches_spec_formula (T : Tables) (sq : Square) (blockers : Nat) :
    get_rook_moves T sq blockers
      = sliding_attack_spec T.MOVES (T.MAGIC_NUMBERS ROOK ⟨sq.to_index, sq.isLt⟩)
          (get_rook_rays T sq) blockers
    ∧ get_bishop_moves T sq blockers
      = sliding_attack_spec T.MOVES (T.MAGIC_NUMBERS BISHOP ⟨sq.to_index, sq.isLt⟩)
          (get_bishop_rays T sq) blockers := by
  constructor <;>
    simp [get_rook_moves, get_bishop_moves, sliding_attack_spec, wrapping_mul, Nat.mul_comm]

/-- C5: for every square and every 64-bit blocker set, the sliding-attack
result is contained in the unobstructed ray set for that piece and square
(containment stated as absorption under intersection). -/
theorem sliding_moves_subset_rays (T : Tables) (sq : Square) (blockers : Nat) :
    get_rook_moves T sq blockers &&& get_rook_rays T sq = get_rook_moves T sq blockers
    ∧ get_bishop_moves T sq blockers &&& get_bishop_rays T sq = get_bishop_moves T sq blockers := by
  constructor <;> simp [get_rook_moves, get_bishop_moves, Nat.and_assoc]

/-- C8: `get_pawn_attacks` equals the static diagonal-capture table entry
for the color and square intersected with the blockers, and every square it
returns is a member of the blockers. -/
theorem pawn_attacks_only_occupied (T : Tables) (sq : Square) (color : Color) (blockers : Nat) :
    get_pawn_attacks T sq color blockers
      = T.PAWN_ATTACKS color.toIndex ⟨sq.to_index, sq.isLt⟩ &&& blockers
    ∧ get_pawn_attacks T sq color blockers &&& blockers = get_pawn_attacks T sq color blockers := by
  refine ⟨rfl, ?_⟩
  simp [get_pawn_attacks, Nat.and_assoc]

/-- C10: for every u8 value `n`, `Square::new(n)` returns normally (the
`unreachable!()` wildcard is never taken), yields the square whose index is
`n AND 63`, and its `to_index` is `n` modulo 64. -/
theorem square_new_total_and_wraps (n : Nat) (h : n < 256) :
    Square.new n = some ⟨n &&& 63, Nat.lt_succ_of_le Nat.and_le_right⟩
    ∧ Option.map Square.to_index (Square.new n) = some (n % 64) := by
  have h63 : n &&& 63 = n % 64 := by
    have := Nat.and_pow_two_sub_one_eq_mod n 6
    norm_num at this
    exact this
  refine ⟨?_, ?_⟩
  · simp [Square.new]
    omega
  · simp [Square.new, Square.to_index, h63]
    omega

/-- Witness for C10 at the concrete input 200. -/
theorem square_new_total_and_wraps_witness :
    200 < 256 ∧
      (Square.new 200 = some ⟨200 &&& 63, Nat.lt_succ_of_le Nat.and_le_right⟩
      ∧ Option.map Square.to_index (Square.new 200) = some (200 % 64)) :=
  ⟨by decide, square_new_total_and_wraps 200 (by decide)⟩

theorem countOnes_zero : countOnes 0 = 0 := by
  rw [countOnes]
  rfl

theorem countOnes_pos (m : Nat) (h : m ≠ 0) : countOnes m = m % 2 + countOnes (m / 2) := by
  conv_lhs => rw [countOnes]
  rw [if_neg h]

theorem pext_zero (b : Nat) : pext b 0 = 0 := by
  rw [pext]
  rfl

theorem pext_odd (b m : Nat) (h0 : m ≠ 0) (h1 : m % 2 = 1) :
    pext b m = 2 * pext (b / 2) (m / 2) + b % 2 := by
  conv_lhs => rw [pext]
  rw [if_neg h0, if_pos h1]

theorem pext_even (b m : Nat) (h0 : m ≠ 0) (h1 : ¬m % 2 = 1) :
    pext b m = pext (b / 2) (m / 2) := by
  conv_lhs => rw [pext]
  rw [if_neg h0, if_neg h1]

theorem pdep_zero (v : Nat) : pdep v 0 = 0 := by
  rw [pdep]
  rfl

theorem pdep_odd (v m : Nat) (h0 : m ≠ 0) (h1 : m % 2 = 1) :
    pdep v m = 2 * pdep (v / 2) (m / 2) + v % 2 := by
  conv_lhs => rw [pdep]
  rw [if_neg h0, if_pos h1]

theorem pdep_even (v m : Nat) (h0 : m ≠ 0) (h1 : ¬m % 2 = 1) :
    pdep v m = 2 * pdep v (m / 2) := by
  conv_lhs => rw [pdep]
  rw [if_neg h0, if_neg h1]

/-- The parallel-extract of any word through a mask is below `2 ^ popcount(mask)`. -/
theorem pext_lt_two_pow (b m : Nat) : pext b m < 2 ^ countOnes m := by
  induction m using Nat.strong_induction_on generalizing b with
  | _ m ih =>
    by_cases h0 : m = 0
    · subst h0
      rw [pext_zero, countOnes_zero]
      simp
    · have hm2 : m / 2 < m := Nat.div_lt_self (Nat.pos_of_ne_zero h0) one_lt_two
      rw [countOnes_pos m h0]
      by_cases h1 : m % 2 = 1
      · rw [pext_odd b m h0 h1, h1]
        have hp := ih (m / 2) hm2 (b / 2)
        have hpow : (2 : Nat) ^ (1 + countOnes (m / 2)) = 2 * 2 ^ countOnes (m / 2) := by
          rw [pow_add, pow_one]
        omega
      · rw [pext_even b m h0 h1]
        have h2 : m % 2 = 0 := by omega
        rw [h2]
        simpa using ih (m / 2) hm2 (b / 2)

/-- Parallel extraction only looks at the masked bits. -/
theorem pext_and_self (b m : Nat) : pext (b &&& m) m = pext b m := by
  induction m using Nat.strong_induction_on generalizing b with
  | _ m ih =>
    by_cases h0 : m = 0
    · subst h0
      rw [pext_zero, pext_zero]
    · have hm2 : m / 2 < m := Nat.div_lt_self (Nat.pos_of_ne_zero h0) one_lt_two
      by_cases h1 : m % 2 = 1
      · rw [pext_odd (b &&& m) m h0 h1, pext_odd b m h0 h1, Nat.and_div_two,
          ih (m / 2) hm2 (b / 2)]
        have hiff := @Nat.and_mod_two_eq_one b m
        omega
      · rw [pext_even (b &&& m) m h0 h1, pext_even b m h0 h1, Nat.and_div_two,
          ih (m / 2) hm2 (b / 2)]

/-- Depositing the extracted bits back through the same mask recovers the
masked word: `pdep(pext(b, m), m) = b AND m`. -/
theorem pdep_pext_self (b m : Nat) : pdep (pext b m) m = b &&& m := by
  induction m using Nat.strong_induction_on generalizing b with
  | _ m ih =>
    by_cases h0 : m = 0
    · subst h0
      rw [pext_zero, pdep_zero]
      simp
    · have hm2 : m / 2 < m := Nat.div_lt_self (Nat.pos_of_ne_zero h0) one_lt_two
      by_cases h1 : m % 2 = 1
      · rw [pext_odd b m h0 h1, pdep_odd _ m h0 h1]
        have e1 : (2 * pext (b / 2) (m / 2) + b % 2) / 2 = pext (b / 2) (m / 2) := by omega
        have e2 : (2 * pext (b / 2) (m / 2) + b % 2) % 2 = b % 2 := by omega
        rw [e1, e2, ih (m / 2) hm2 (b / 2)]
        have hd : (b &&& m) / 2 = b / 2 &&& m / 2 := Nat.and_div_two
        have hiff := @Nat.and_mod_two_eq_one b m
        omega
      · rw [pext_even b m h0 h1, pdep_even _ m h0 h1, ih (m / 2) hm2 (b / 2)]
        have hd : (b &&& m) / 2 = b / 2 &&& m / 2 := Nat.and_div_two
        have hiff := @Nat.and_mod_two_eq_one b m
        omega

theorem checkStep_of_ne {α : Type} (f : α → Option Bool) (a : Option Bool) (x : α)
    (ha : a ≠ some true) : checkStep f a x = a := by
  cases a with
  | none => rfl
  | some bv =>
    cases bv with
    | false => rfl
    | true => exact absurd rfl ha

theorem foldl_checkStep_stuck {α : Type} (f : α → Option Bool) (l : List α) (a : Option Bool)
    (ha : a ≠ some true) : l.foldl (checkStep f) a = a := by
  induction l generalizing a with
  | nil => rfl
  | cons x xs ih =>
    rw [List.foldl_cons, checkStep_of_ne f a x ha]
    exact ih a ha

/-- The square loop of the soundness checks yields `some true` exactly when
every element passes its per-element check. -/
theorem checkAll_eq_true_iff {α : Type} (f : α → Option Bool) (l : List α) :
    checkAll f l = some true ↔ ∀ x ∈ l, f x = some true := by
  induction l with
  | nil => simp [checkAll]
  | cons x xs ih =>
    constructor
    · intro h
      have hfx : f x = some true := by
        by_contra hne
        have hstuck : checkAll f (x :: xs) = f x := by
          unfold checkAll
          rw [List.foldl_cons, show checkStep f (some true) x = f x from rfl]
          exact foldl_checkStep_stuck f xs (f x) hne
        rw [hstuck] at h
        exact hne h
      have hxs : checkAll f xs = some true := by
        unfold checkAll at h ⊢
        rw [List.foldl_cons, show checkStep f (some true) x = f x from rfl, hfx] at h
        exact h
      intro y hy
      rcases List.mem_cons.mp hy with h' | h'
      · exact h' ▸ hfx
      · exact ih.mp hxs y h'
    · intro h
      unfold checkAll
      rw [List.foldl_cons, show checkStep f (some true) x = f x from rfl,
        h x (List.mem_cons_self x xs)]
      exact ih.mpr fun y hy => h y (List.mem_cons_of_mem x hy)

/-- C3: for every square and every 64-bit blocker set, the table index of
the portable hot path, `((blockers AND mask) * magic_number mod 2^64) >>
rightshift`, is at most the verifier's `max_index = ((magic_number * mask)
mod 2^64) >> rightshift`, and once `table_access_is_sound` passes for a
piece's magic table, the unchecked access `offset + index` into `MOVES`
performed by `get_rook_moves` and `get_bishop_moves` is strictly within
`MOVES.len()`.  Passing includes that constant evaluation of the verifier
succeeded, which rules out overflow of `magic_number * mask`. -/
theorem magic_table_access_in_bounds (T : Tables) (index : Fin 2)
    (h : table_access_is_sound T index = some true) (sq : Square) (blockers : Nat) :
    to_size (wrapping_mul (T.MAGIC_NUMBERS index sq).magic_number
        (blockers &&& (T.MAGIC_NUMBERS index sq).mask)) (T.MAGIC_NUMBERS index sq).rightshift
      ≤ to_size (wrapping_mul (T.MAGIC_NUMBERS index sq).magic_number
          (T.MAGIC_NUMBERS index sq).mask) (T.MAGIC_NUMBERS index sq).rightshift
    ∧ (T.MAGIC_NUMBERS index sq).offset
        + to_size (wrapping_mul (T.MAGIC_NUMBERS index sq).magic_number
            (blockers &&& (T.MAGIC_NUMBERS index sq).mask)) (T.MAGIC_NUMBERS index sq).rightshift
      < T.movesLen := by
  have hsq := (checkAll_eq_true_iff _ _).mp h sq (List.mem_finRange sq)
  set magic := T.MAGIC_NUMBERS index sq with hm
  unfold checkMagicSquare at hsq
  by_cases hcond : magic.magic_number * magic.mask < U64MOD ∧ magic.rightshift < 64
  · rw [if_pos hcond] at hsq
    have hbound : magic.offset + (magic.magic_number * magic.mask) >>> magic.rightshift
        < T.movesLen := of_decide_eq_true (Option.some.inj hsq)
    obtain ⟨hov, hsh⟩ := hcond
    have hle : magic.magic_number * (blockers &&& magic.mask) ≤ magic.magic_number * magic.mask :=
      Nat.mul_le_mul_left _ Nat.and_le_right
    have e1 : wrapping_mul magic.magic_number (blockers &&& magic.mask)
        = magic.magic_number * (blockers &&& magic.mask) :=
      Nat.mod_eq_of_lt (lt_of_le_of_lt hle hov)
    have e2 : wrapping_mul magic.magic_number magic.mask = magic.magic_number * magic.mask :=
      Nat.mod_eq_of_lt hov
    have hmono : to_size (magic.magic_number * (blockers &&& magic.mask)) magic.rightshift
        ≤ to_size (magic.magic_number * magic.mask) magic.rightshift := by
      unfold to_size
      simp only [Nat.shiftRight_eq_div_pow]
      exact Nat.div_le_div_right hle
    rw [e1, e2]
    exact ⟨hmono, by have := hbound; unfold to_size at hmono ⊢; omega⟩
  · rw [if_neg hcond] at hsq
    exact absurd hsq (by simp)

/-- Witness for C3 with the all-zero length-1 tables, square 0, blockers 5. -/
theorem magic_table_access_in_bounds_witness :
    table_access_is_sound trivTables ROOK = some true ∧
      (to_size (wrapping_mul (trivTables.MAGIC_NUMBERS ROOK 0).magic_number
          (5 &&& (trivTables.MAGIC_NUMBERS ROOK 0).mask)) (trivTables.MAGIC_NUMBERS ROOK 0).rightshift
        ≤ to_size (wrapping_mul (trivTables.MAGIC_NUMBERS ROOK 0).magic_number
            (trivTables.MAGIC_NUMBERS ROOK 0).mask) (trivTables.MAGIC_NUMBERS ROOK 0).rightshift
      ∧ (trivTables.MAGIC_NUMBERS ROOK 0).offset
          + to_size (wrapping_mul (trivTables.MAGIC_NUMBERS ROOK 0).magic_number
              (5 &&& (trivTables.MAGIC_NUMBERS ROOK 0).mask)) (trivTables.MAGIC_NUMBERS ROOK 0).rightshift
        < trivTables.movesLen) :=
  ⟨by decide, magic_table_access_in_bounds trivTables ROOK (by decide) 0 5⟩

/-- C4: for every square and every 64-bit blocker set, the hardware-path
index `pext(blockers, blockers_mask)` is at most
`(1 <<< popcount(blockers_mask)) - 1`, and once `bmi_table_access_is_sound`
passes, the unchecked access `offset + index` into `BMI_MOVES` performed by
`get_rook_moves_bmi` and `get_bishop_moves_bmi` is strictly within
`BMI_MOVES.len()`. -/
theorem bmi_table_access_in_bounds (masks : Fin 64 → BmiMagic) (len : Nat)
    (h : bmi_table_access_is_sound masks len = some true) (sq : Square) (blockers : Nat) :
    pext blockers (masks sq).blockers_mask ≤ 2 ^ countOnes (masks sq).blockers_mask - 1
    ∧ (masks sq).offset + pext blockers (masks sq).blockers_mask < len := by
  have hsq := (checkAll_eq_true_iff _ _).mp h sq (List.mem_finRange sq)
  unfold checkBmiSquare at hsq
  by_cases hc : countOnes (masks sq).blockers_mask < 64
  · rw [if_pos hc] at hsq
    have hbound : (masks sq).offset + (2 ^ countOnes (masks sq).blockers_mask - 1) < len :=
      of_decide_eq_true (Option.some.inj hsq)
    have hlt := pext_lt_two_pow blockers (masks sq).blockers_mask
    exact ⟨by omega, by omega⟩
  · rw [if_neg hc] at hsq
    exact absurd hsq (by simp)

/-- Witness for C4 with the all-zero BMI masks, length 1, square 0, blockers 9. -/
theorem bmi_table_access_in_bounds_witness :
    bmi_table_access_is_sound trivBmiMasks 1 = some true ∧
      (pext 9 (trivBmiMasks 0).blockers_mask ≤ 2 ^ countOnes (trivBmiMasks 0).blockers_mask - 1
      ∧ (trivBmiMasks 0).offset + pext 9 (trivBmiMasks 0).blockers_mask < 1) :=
  have hcheck : bmi_table_access_is_sound trivBmiMasks 1 = some true :=
    (checkAll_eq_true_iff _ _).mpr fun x _ => by
      simp [trivBmiMasks, checkBmiSquare, countOnes_zero]
  ⟨hcheck, bmi_table_access_in_bounds trivBmiMasks 1 hcheck 0 9⟩

/-- Core of the engine equivalence: if the portable slot contents agree
with an attack function `A` on every distinguishable blocker pattern
(every `pdep i mask` for `i` below `2 ^ popcount(mask)`), and the
compressed hardware slot contents deposit to `A` on the same patterns,
then the two lookups agree on every blocker word. -/
theorem sliding_engines_agree_core (moves bmiMoves : Nat → Nat) (magic : Magic) (e : BmiMagic)
    (rays : Nat) (A : Nat → Nat)
    (hm : e.blockers_mask = magic.mask)
    (h1 : ∀ i, i < 2 ^ countOnes magic.mask →
      moves (magic.offset +
          to_size (wrapping_mul magic.magic_number (pdep i magic.mask)) magic.rightshift) &&& rays
        = A (pdep i magic.mask))
    (h2 : ∀ i, i < 2 ^ countOnes magic.mask →
      pdep (bmiMoves (i + e.offset)) rays = A (pdep i magic.mask))
    (blockers : Nat) :
    moves (magic.offset +
        to_size (wrapping_mul magic.magic_number (blockers &&& magic.mask)) magic.rightshift)
      &&& rays
      = pdep (bmiMoves (pext blockers e.blockers_mask + e.offset)) rays := by
  rw [hm]
  have hilt : pext blockers magic.mask < 2 ^ countOnes magic.mask :=
    pext_lt_two_pow blockers magic.mask
  have e1 := h1 (pext blockers magic.mask) hilt
  have e2 := h2 (pext blockers magic.mask) hilt
  rw [pdep_pext_self blockers magic.mask] at e1 e2
  exact e1.trans e2.symm

/-- C2: for every square and every 64-bit blocker set, the hardware
fast-path engine returns the exact same BitBoard as the portable engine,
under the invariants the spec assigns to the generated tables (§3, §4.2):
the magic and BMI masks for a square agree, the portable slot holds (after
the ray intersection) the correct attack set for each distinguishable
pattern, and the compressed BMI slot deposits through the rays to the
correct attack set for the same pattern. -/
theorem bmi_engines_agree (T : Tables) (sq : Square) (Ar Ab : Nat → Nat)
    (hmr : (T.ROOK_BMI_MASK sq).blockers_mask = (T.MAGIC_NUMBERS ROOK sq).mask)
    (hmb : (T.BISHOP_BMI_MASK sq).blockers_mask = (T.MAGIC_NUMBERS BISHOP sq).mask)
    (h1r : ∀ i, i < 2 ^ countOnes (T.MAGIC_NUMBERS ROOK sq).mask →
      T.MOVES ((T.MAGIC_NUMBERS ROOK sq).offset +
          to_size (wrapping_mul (T.MAGIC_NUMBERS ROOK sq).magic_number
            (pdep i (T.MAGIC_NUMBERS ROOK sq).mask)) (T.MAGIC_NUMBERS ROOK sq).rightshift)
        &&& get_rook_rays T sq = Ar (pdep i (T.MAGIC_NUMBERS ROOK sq).mask))
    (h2r : ∀ i, i < 2 ^ countOnes (T.MAGIC_NUMBERS ROOK sq).mask →
      pdep (T.BMI_MOVES (i + (T.ROOK_BMI_MASK sq).offset)) (get_rook_rays T sq)
        = Ar (pdep i (T.MAGIC_NUMBERS ROOK sq).mask))
    (h1b : ∀ i, i < 2 ^ countOnes (T.MAGIC_NUMBERS BISHOP sq).mask →
      T.MOVES ((T.MAGIC_NUMBERS BISHOP sq).offset +
          to_size (wrapping_mul (T.MAGIC_NUMBERS BISHOP sq).magic_number
            (pdep i (T.MAGIC_NUMBERS BISHOP sq).mask)) (T.MAGIC_NUMBERS BISHOP sq).rightshift)
        &&& get_bishop_rays T sq = Ab (pdep i (T.MAGIC_NUMBERS BISHOP sq).mask))
    (h2b : ∀ i, i < 2 ^ countOnes (T.MAGIC_NUMBERS BISHOP sq).mask →
      pdep (T.BMI_MOVES (i + (T.BISHOP_BMI_MASK sq).offset)) (get_bishop_rays T sq)
        = Ab (pdep i (T.MAGIC_NUMBERS BISHOP sq).mask))
    (blockers : Nat) :
    get_rook_moves_bmi T sq blockers = get_rook_moves T sq blockers
    ∧ get_bishop_moves_bmi T sq blockers = get_bishop_moves T sq blockers := by
  constructor
  · exact (sliding_engines_agree_core T.MOVES T.BMI_MOVES (T.MAGIC_NUMBERS ROOK sq)
      (T.ROOK_BMI_MASK sq) (get_rook_rays T sq) Ar hmr h1r h2r blockers).symm
  · exact (sliding_engines_agree_core T.MOVES T.BMI_MOVES (T.MAGIC_NUMBERS BISHOP sq)
      (T.BISHOP_BMI_MASK sq) (get_bishop_rays T sq) Ab hmb h1b h2b blockers).symm

/-- Witness for C2 with the all-zero length-1 tables, square 0, blockers 3. -/
theorem bmi_engines_agree_witness :
    (trivTables.ROOK_BMI_MASK 0).blockers_mask = (trivTables.MAGIC_NUMBERS ROOK 0).mask
    ∧ (get_rook_moves_bmi trivTables 0 3 = get_rook_moves trivTables 0 3
      ∧ get_bishop_moves_bmi trivTables 0 3 = get_bishop_moves trivTables 0 3) :=
  ⟨rfl, bmi_engines_agree trivTables 0 (fun _ => 0) (fun _ => 0) rfl rfl
    (fun _ _ => show (0 : Nat) &&& 0 = 0 from rfl)
    (fun _ _ => show pdep 0 0 = 0 from pdep_zero 0)
    (fun _ _ => show (0 : Nat) &&& 0 = 0 from rfl)
    (fun _ _ => show pdep 0 0 = 0 from pdep_zero 0)
    3⟩

/-- Exclusive-or of disjoint bit sets is their union. -/
theorem xor_eq_or_of_and_eq_zero (x y : Nat) (h : x &&& y = 0) : x ^^^ y = x ||| y := by
  apply Nat.eq_of_testBit_eq
  intro i
  have hb : (x &&& y).testBit i = false := by rw [h]; simp
  rw [Nat.testBit_and] at hb
  simp only [Nat.testBit_xor, Nat.testBit_or]
  cases hx : x.testBit i <;> cases hy : y.testBit i <;> simp_all

/-- C6: pawn attacks and pawn quiets are disjoint BitBoards, so
`get_pawn_moves`, their exclusive-or, equals their union. -/
theorem pawn_attacks_quiets_disjoint (T : Tables) (sq : Square) (color : Color)
    (blockers : Nat) (hb : blockers < U64MOD) :
    get_pawn_attacks T sq color blockers &&& get_pawn_quiets T sq color blockers = 0
    ∧ get_pawn_moves T sq color blockers
        = get_pawn_attacks T sq color blockers ||| get_pawn_quiets T sq color blockers := by
  have hdisj : get_pawn_attacks T sq color blockers &&& get_pawn_quiets T sq color blockers = 0 := by
    unfold get_pawn_attacks get_pawn_quiets
    by_cases hocc : from_square (sq.uforward color) &&& blockers ≠ 0
    · rw [if_pos hocc, Nat.and_zero]
    · rw [if_neg hocc]
      apply Nat.eq_of_testBit_eq
      intro i
      unfold compl64
      simp only [Nat.testBit_and, Nat.testBit_xor, Nat.zero_testBit]
      have hones : (U64MOD - 1).testBit i = decide (i < 64) := Nat.testBit_two_pow_sub_one 64 i
      rw [hones]
      by_cases hi : i < 64
      · have hd : decide (i < 64) = true := by simp [hi]
        rw [hd]
        cases hbi : blockers.testBit i <;> simp
      · have hbi : blockers.testBit i = false :=
          Nat.testBit_lt_two_pow
            (lt_of_lt_of_le hb (Nat.pow_le_pow_right (by norm_num) (by omega)))
        simp [hbi]
  refine ⟨hdisj, ?_⟩
  unfold get_pawn_moves
  exact xor_eq_or_of_and_eq_zero _ _ hdisj

/-- Witness for C6 with the all-zero tables, square 0, White, blockers 0. -/
theorem pawn_attacks_quiets_disjoint_witness :
    (0 : Nat) < U64MOD ∧
      (get_pawn_attacks trivTables 0 Color.White 0 &&& get_pawn_quiets trivTables 0 Color.White 0 = 0
      ∧ get_pawn_moves trivTables 0 Color.White 0
          = get_pawn_attacks trivTables 0 Color.White 0
            ||| get_pawn_quiets trivTables 0 Color.White 0) :=
  ⟨by decide, pawn_attacks_quiets_disjoint trivTables 0 Color.White 0 (by decide)⟩

/-- A power of two meets a word iff the word has that bit set. -/
theorem two_pow_and_ne_zero_iff (k b : Nat) : 2 ^ k &&& b ≠ 0 ↔ b.testBit k = true := by
  constructor
  · intro h
    by_contra hk
    apply h
    apply Nat.eq_of_testBit_eq
    intro i
    simp only [Nat.testBit_and, Nat.zero_testBit]
    by_cases hik : i = k
    · subst hik
      simp only [Bool.not_eq_true] at hk
      simp [hk]
    · simp [Nat.testBit_two_pow_of_ne (fun h => hik h.symm)]
  · intro hk h0
    have htrue : (2 ^ k &&& b).testBit k = true := by
      simp [Nat.testBit_and, hk, Nat.testBit_two_pow_self]
    rw [h0] at htrue
    simp at htrue

/-- C7: `get_pawn_quiets` returns the empty BitBoard when the square
immediately ahead (the wrap-around forward step `uforward`, used only as a
table index) is a member of the blockers, and otherwise returns the pawn
push-table entry for the color and square with all squares in the blockers
removed (stated bit by bit). -/
theorem pawn_quiets_push_semantics (T : Tables) (sq : Square) (color : Color) (blockers : Nat)
    (hpm : T.PAWN_MOVES color.toIndex ⟨sq.to_index, sq.isLt⟩ < U64MOD) :
    (blockers.testBit (sq.uforward color).to_index = true →
      get_pawn_quiets T sq color blockers = 0)
    ∧ (blockers.testBit (sq.uforward color).to_index = false →
      ∀ i, (get_pawn_quiets T sq color blockers).testBit i
        = ((T.PAWN_MOVES color.toIndex ⟨sq.to_index, sq.isLt⟩).testBit i
            && !blockers.testBit i)) := by
  have hfs : from_square (sq.uforward color) = 2 ^ (sq.uforward color).val := by
    unfold from_square
    rw [Nat.shiftLeft_eq, one_mul]
  have hiff : (from_square (sq.uforward color) &&& blockers ≠ 0)
      ↔ blockers.testBit (sq.uforward color).val = true := by
    rw [hfs]
    exact two_pow_and_ne_zero_iff _ _
  constructor
  · intro hmem
    unfold get_pawn_quiets
    rw [if_pos (hiff.mpr hmem)]
  · intro hmem i
    have hmemv : blockers.testBit (sq.uforward color).val = false := hmem
    unfold get_pawn_quiets
    rw [if_neg (fun hc => by rw [hiff.mp hc] at hmemv; cases hmemv)]
    unfold compl64
    simp only [Nat.testBit_and, Nat.testBit_xor]
    have hones : (U64MOD - 1).testBit i = decide (i < 64) := Nat.testBit_two_pow_sub_one 64 i
    rw [hones]
    by_cases hi : i < 64
    · simp [hi]
    · have hpmi : (T.PAWN_MOVES color.toIndex ⟨sq.to_index, sq.isLt⟩).testBit i = false :=
        Nat.testBit_lt_two_pow
          (lt_of_lt_of_le hpm (Nat.pow_le_pow_right (by norm_num) (by omega)))
      simp [hpmi, hi]

/-- Witness for C7 with the all-zero tables, square 0, White, blockers 0,
inspecting bit 3 of the result. -/
theorem pawn_quiets_push_semantics_witness :
    trivTables.PAWN_MOVES Color.White.toIndex 0 < U64MOD ∧
      (get_pawn_quiets trivTables 0 Color.White 0).testBit 3
        = ((trivTables.PAWN_MOVES Color.White.toIndex 0).testBit 3 && !(Nat.testBit 0 3)) :=
  ⟨by decide,
    (pawn_quiets_push_semantics trivTables 0 Color.White 0 (by decide)).2 (by decide) 3⟩

/-- BitBoards of pointwise equivalent predicates agree. -/
theorem squaresBB_congr (p q : Square → Prop) [DecidablePred p] [DecidablePred q]
    (h : ∀ c, p c ↔ q c) : squaresBB p = squaresBB q := by
  unfold squaresBB
  exact Finset.sum_congr rfl fun i _ => if_congr (h i) rfl rfl

theorem strictBetween_comm (x y z : Nat) : strictBetween x y z ↔ strictBetween y x z := by
  unfold strictBetween
  omega

theorem diagEq_symm {a b : Square} (h : diagEq a b) : diagEq b a := by
  unfold diagEq at h ⊢
  omega

theorem diagEq_right {a b c : Square} (hab : diagEq a b) (hac : diagEq a c) : diagEq b c := by
  unfold diagEq at hab hac ⊢
  omega

theorem antiEq_symm {a b : Square} (h : antiEq a b) : antiEq b a := by
  unfold antiEq at h ⊢
  omega

theorem antiEq_right {a b c : Square} (hab : antiEq a b) (hac : antiEq a c) : antiEq b c := by
  unfold antiEq at hab hac ⊢
  omega

/-- Swapping the two endpoint squares preserves the strictly-between
condition. -/
theorem btwCond_imp (a b c : Square) (h : btwCond a b c) : btwCond b a c := by
  unfold btwCond at h ⊢
  rcases h with ⟨h1, h2, h3⟩ | ⟨h1, h2, h3⟩ | ⟨h1, h2, h3⟩ | ⟨h1, h2, h3⟩
  · exact Or.inl ⟨h1.symm, h2.trans h1, (strictBetween_comm _ _ _).mp h3⟩
  · exact Or.inr (Or.inl ⟨h1.symm, h2.trans h1, (strictBetween_comm _ _ _).mp h3⟩)
  · exact Or.inr (Or.inr (Or.inl
      ⟨diagEq_symm h1, diagEq_right h1 h2, (strictBetween_comm _ _ _).mp h3⟩))
  · exact Or.inr (Or.inr (Or.inr
      ⟨antiEq_symm h1, antiEq_right h1 h2, (strictBetween_comm _ _ _).mp h3⟩))

/-- C9: `between` and `line` are symmetric in their two square arguments
(on the spec-modelled generated tables). -/
theorem line_between_symmetric (a b : Square) :
    between BETWEEN_model a b = between BETWEEN_model b a
    ∧ line LINE_model a b = line LINE_model b a := by
  constructor
  · show BETWEEN_model a b = BETWEEN_model b a
    unfold BETWEEN_model
    exact squaresBB_congr _ _ fun c => ⟨btwCond_imp a b c, btwCond_imp b a c⟩
  · show LINE_model a b = LINE_model b a
    unfold LINE_model
    by_cases h1 : rankOf a = rankOf b
    · rw [if_pos h1, if_pos h1.symm]
      exact squaresBB_congr _ _ fun c => by rw [h1]
    · have h1s : ¬rankOf b = rankOf a := fun hh => h1 hh.symm
      rw [if_neg h1, if_neg h1s]
      by_cases h2 : fileOf a = fileOf b
      · rw [if_pos h2, if_pos h2.symm]
        exact squaresBB_congr _ _ fun c => by rw [h2]
      · have h2s : ¬fileOf b = fileOf a := fun hh => h2 hh.symm
        rw [if_neg h2, if_neg h2s]
        by_cases h3 : diagEq a b
        · have h3s : diagEq b a := diagEq_symm h3
          rw [if_pos h3, if_pos h3s]
          exact squaresBB_congr _ _ fun c =>
            ⟨fun hc => diagEq_right h3 hc, fun hc => diagEq_right h3s hc⟩
        · have h3s : ¬diagEq b a := fun hh => h3 (diagEq_symm hh)
          rw [if_neg h3, if_neg h3s]
          by_cases h4 : antiEq a b
          · have h4s : antiEq b a := antiEq_symm h4
            rw [if_pos h4, if_pos h4s]
            exact squaresBB_congr _ _ fun c =>
              ⟨fun hc => antiEq_right h4 hc, fun hc => antiEq_right h4s hc⟩
          · have h4s : ¬antiEq b a := fun hh => h4 (antiEq_symm hh)
            rw [if_neg h4, if_neg h4s]

end Chess
